import Mathlib

set_option maxHeartbeats 1000000

/-!
Verification of the `find-images` traversal-and-registry engine
(`src/main.rs`) against its specification.

The program is embedded shallowly:

* An `OsStr` is a list of byte values (`Bytes`); a `PathBuf` is its list of
  components (`FsPath`).  File modification times are integers (seconds
  relative to the Unix epoch; Rust `SystemTime` can denote pre-epoch
  instants).
* The filesystem seen by one run is a static tree of `Node`s.  Fallible
  system calls are determined by node attributes: `statOk` is the outcome of
  `stat`/`lstat` on the node, `readOk` the outcome of `read_dir` on a
  directory, and a `none` element of a directory listing is an entry whose
  `io::Result<DirEntry>` is an error.  A symbolic link resolves to its
  target node (`none` when broken); `Path::is_file`/`is_dir` and
  `fs::metadata` follow links, `fs::symlink_metadata` does not.
* `struct Registry` with its methods `new`, `write_all`, `sort_by_modified`,
  `populate`, `add_file`, `add_dir` is embedded one-to-one; `eprintln!`
  diagnostics become a `diags` list, appended exactly when the
  `match self.verbosity { ..0 => (), 0.. => eprintln!(..) }` of the source
  prints.
* `Vec::sort_by_key` is a stable non-decreasing sort by key; it is embedded
  as `List.mergeSort`, which is stable and sorts non-decreasingly — the
  extensional behaviour Rust documents for `sort_by_key`.
-/

/-- A byte string: the bytes of a Rust `OsStr` / `[u8]`. -/
abbrev Bytes := List Nat

/-- A filesystem path as its sequence of components (Rust `PathBuf`). -/
abbrev FsPath := List Bytes

/-- Decides whether a byte is a UTF-8 continuation byte (`0x80`–`0xBF`). -/
def contByte (b : Nat) : Bool := 128 ≤ b && b ≤ 191

/-- Decides whether a byte string is valid UTF-8 (Rust `OsStr::to_str`
succeeds exactly on valid UTF-8). -/
def isValidUtf8 : Bytes → Bool
  | [] => true
  | b :: rest =>
    if b ≤ 127 then isValidUtf8 rest
    else if 194 ≤ b ∧ b ≤ 223 then
      match rest with
      | c1 :: rest2 => contByte c1 && isValidUtf8 rest2
      | [] => false
    else if b = 224 then
      match rest with
      | c1 :: c2 :: rest2 => (160 ≤ c1 && c1 ≤ 191) && (contByte c2 && isValidUtf8 rest2)
      | _ => false
    else if (225 ≤ b ∧ b ≤ 236) ∨ b = 238 ∨ b = 239 then
      match rest with
      | c1 :: c2 :: rest2 => contByte c1 && (contByte c2 && isValidUtf8 rest2)
      | _ => false
    else if b = 237 then
      match rest with
      | c1 :: c2 :: rest2 => (128 ≤ c1 && c1 ≤ 159) && (contByte c2 && isValidUtf8 rest2)
      | _ => false
    else if b = 240 then
      match rest with
      | c1 :: c2 :: c3 :: rest2 =>
        (144 ≤ c1 && c1 ≤ 191) && (contByte c2 && (contByte c3 && isValidUtf8 rest2))
      | _ => false
    else if 241 ≤ b ∧ b ≤ 243 then
      match rest with
      | c1 :: c2 :: c3 :: rest2 =>
        contByte c1 && (contByte c2 && (contByte c3 && isValidUtf8 rest2))
      | _ => false
    else if b = 244 then
      match rest with
      | c1 :: c2 :: c3 :: rest2 =>
        (128 ≤ c1 && c1 ≤ 143) && (contByte c2 && (contByte c3 && isValidUtf8 rest2))
      | _ => false
    else false

/-- Rust `Path::file_name` applied to a path whose final component is `name`:
the final component when it is a normal one, `none` for the empty or `..`
component (which are not normal components). -/
def fileNameSeg (name : Bytes) : Option Bytes :=
  if name = [] ∨ name = [46, 46] then none else some name

/-- Rust `Path::file_name` on a whole path. -/
def fsFileName (p : FsPath) : Option Bytes :=
  match p.getLast? with
  | none => none
  | some seg => fileNameSeg seg

/-- The byte string after the last `.` of a byte string (`none` when it
holds no `.`). -/
def afterLastDot : Bytes → Option Bytes
  | [] => none
  | b :: rest =>
    match afterLastDot rest with
    | some e => some e
    | none => if b = 46 then some rest else none

/-- The Rust split of a file name at its last `.`: the extension is the part
after the final `.`, except that a leading `.` alone does not begin an
extension (`.gitignore` has none, `.foo.txt` has `txt`, `foo.` has ` `the
empty one). -/
def extOfSeg (name : Bytes) : Option Bytes :=
  match name with
  | [] => none
  | b0 :: rest => if b0 = 46 then afterLastDot rest else afterLastDot (b0 :: rest)

/-- Rust `Path::extension`. -/
def pathExtension (p : FsPath) : Option Bytes :=
  (fsFileName p).bind extOfSeg

/-- Whether `OsStr::to_string_lossy` of `name` starts with a dot: exactly
when the first byte is `0x2E` (a lossy-decoded first character is the dot
character iff the first byte is the ASCII dot). -/
def startsWithDot (name : Bytes) : Bool :=
  match name with
  | 46 :: _ => true
  | _ => false

/-- The hidden-entry test of `Registry::add_dir` (src/main.rs line 191):
`!dohidden && path.file_name().map(.. starts_with dot ..).unwrap_or(true)`. -/
def hiddenSkip (dohidden : Bool) (name : Bytes) : Bool :=
  !dohidden && ((fileNameSeg name).map startsWithDot).getD true

/-- A node of the static filesystem tree seen by one run.

* `file statOk mtime`: a regular file; `statOk` is whether `stat`/`lstat`
  succeeds on it, `mtime` is `Metadata::modified()` (`none` when that call
  fails).
* `dir statOk readOk listing`: a directory; `readOk` is whether `read_dir`
  succeeds; a `none` listing element is an entry whose `io::Result` is an
  error, a `some (name, child)` element is a child with its name (read_dir
  yields neither `.` nor `..`).
* `symlink statOk target`: a symbolic link; `target` is the node it
  resolves to (`none` when broken).
* `other statOk`: any other file type (device, socket, FIFO). -/
inductive Node : Type where
  | file (statOk : Bool) (mtime : Option Int)
  | dir (statOk : Bool) (readOk : Bool) (listing : List (Option (Bytes × Node)))
  | symlink (statOk : Bool) (target : Option Node)
  | other (statOk : Bool)

/-- Symlink resolution, as done by `stat`-family calls that follow links. -/
def resolve : Node → Option Node
  | .symlink _ none => none
  | .symlink _ (some t) => resolve t
  | .file s mt => some (.file s mt)
  | .dir s r l => some (.dir s r l)
  | .other s => some (.other s)

/-- Whether `lstat` (Rust `fs::symlink_metadata`) succeeds on a node. -/
def lstatOk : Node → Bool
  | .file s _ => s
  | .dir s _ _ => s
  | .symlink s _ => s
  | .other s => s

/-- Whether a node is a symbolic link (`FileType::is_symlink` of the
`symlink_metadata` result). -/
def isSymlinkNode : Node → Bool
  | .symlink _ _ => true
  | _ => false

/-- Whether a node is a regular file (`FileType::is_file`). -/
def isFileNode : Node → Bool
  | .file _ _ => true
  | _ => false

/-- Whether a node is a directory (`FileType::is_dir`). -/
def isDirNode : Node → Bool
  | .dir _ _ _ => true
  | _ => false

/-- The `modified()` result of the metadata of a regular file. -/
def fileMtime : Node → Option Int
  | .file _ mt => mt
  | _ => none

/-- One diagnostic printed to the error stream (an `eprintln!` of
src/main.rs, lines 155, 171, 183, 200). -/
inductive Diag : Type where
  | readDirFail (p : FsPath)
  | iterFail (p : FsPath)
  | statFail (p : FsPath)
  | badExt (p : FsPath) (ext : Bytes)
deriving DecidableEq

/-- The state of `struct Registry` (src/main.rs lines 101–105), together
with the diagnostics the run has printed so far. -/
structure Registry : Type where
  verbosity : Int
  valid_extensions : List Bytes
  registry : List (Option Int × FsPath)
  diags : List Diag
deriving DecidableEq

/-- `Registry::new` (src/main.rs line 107). -/
def Registry.new (verbosity : Int) (valid_extensions : List Bytes) : Registry :=
  ⟨verbosity, valid_extensions, [], []⟩

/-- The verbosity gate around every `eprintln!`:
`match self.verbosity { ..0 => (), 0.. => eprintln!(..) }`. -/
def Registry.emit (st : Registry) (d : Diag) : Registry :=
  if st.verbosity ≥ 0 then { st with diags := st.diags ++ [d] } else st

/-- `Registry::add_file` (src/main.rs lines 147–163): look up the
extension of the path; no extension means silently do nothing; an extension that is not
valid UTF-8 is a diagnostic; a valid extension is admitted iff it is in
`valid_extensions` (exact byte equality, mirroring `HashSet<&str>::contains`). -/
def Registry.add_file (st : Registry) (path : FsPath) (md : Option Int) : Registry :=
  match pathExtension path with
  | none => st
  | some ext =>
    if isValidUtf8 ext then
      if ext ∈ st.valid_extensions then
        { st with registry := st.registry ++ [(md, path)] }
      else st
    else st.emit (.badExt path ext)

mutual

/-- `Registry::add_dir` (src/main.rs lines 165–216) applied to the node the
filesystem holds at `path` (after following links, as `read_dir` does): a
failing `read_dir` is a diagnostic and the directory is skipped; otherwise
each listed entry is processed in order. -/
def Registry.add_dir (st : Registry) (path : FsPath) (n : Node) (dohidden : Bool) : Registry :=
  match n with
  | .dir _ true listing => Registry.add_entries st path listing dohidden
  | _ => st.emit (.readDirFail path)

/-- The entry loop of `Registry::add_dir` (src/main.rs lines 177–215): an
erroneous entry is a diagnostic and is skipped.  For a successfully listed
entry `name`/`child`, the hidden test runs first; then `symlink_metadata`
(failure is a diagnostic and a skip); symbolic links are skipped
unconditionally; regular files go through `add_file`; directories recurse;
other kinds are ignored. -/
def Registry.add_entries (st : Registry) (path : FsPath)
    (entries : List (Option (Bytes × Node))) (dohidden : Bool) : Registry :=
  match entries with
  | [] => st
  | none :: rest => Registry.add_entries (st.emit (.iterFail path)) path rest dohidden
  | some (name, child) :: rest =>
    let st2 :=
      if hiddenSkip dohidden name then st
      else if !lstatOk child then st.emit (.statFail (path ++ [name]))
      else if isSymlinkNode child then st
      else if isFileNode child then st.add_file (path ++ [name]) (fileMtime child)
      else if isDirNode child then Registry.add_dir st (path ++ [name]) child dohidden
      else st
    Registry.add_entries st2 path rest dohidden

end

/-- The body of the entry loop for one successfully listed entry, as a
standalone function; `add_entries_cons_some` below proves it is what
`add_entries` runs on each `some` entry. -/
def Registry.stepEntry (st : Registry) (path : FsPath) (name : Bytes) (child : Node)
    (dohidden : Bool) : Registry :=
  if hiddenSkip dohidden name then st
  else if !lstatOk child then st.emit (.statFail (path ++ [name]))
  else if isSymlinkNode child then st
  else if isFileNode child then st.add_file (path ++ [name]) (fileMtime child)
  else if isDirNode child then Registry.add_dir st (path ++ [name]) child dohidden
  else st

/-- `Registry::populate` (src/main.rs lines 135–145) over targets paired
with the node the filesystem holds at each target path.  `is_file`/`is_dir`
and `fs::metadata` follow symbolic links, so a target acts through its
resolved node; a target that resolves to neither a statable regular file
nor a statable directory is ignored. -/
def Registry.populate (st : Registry) (targets : List (FsPath × Node)) (dohidden : Bool) :
    Registry :=
  match targets with
  | [] => st
  | (p, n) :: rest =>
    let st2 :=
      match resolve n with
      | some (.file true mt) => st.add_file p mt
      | some (.dir true rOk l) => st.add_dir p (.dir true rOk l) dohidden
      | _ => st
    Registry.populate st2 rest dohidden

/-- The sort key of `Registry::sort_by_modified` (src/main.rs lines
128–132): `md.modified().ok().unwrap_or(UNIX_EPOCH)`. -/
def sortKey (e : Option Int × FsPath) : Int := e.1.getD 0

/-- `Registry::sort_by_modified` (src/main.rs lines 127–133):
`Vec::sort_by_key`, a stable non-decreasing sort by key, embedded as the
stable `List.mergeSort`. -/
def Registry.sort_by_modified (st : Registry) : Registry :=
  { st with registry := st.registry.mergeSort (fun a b => sortKey a ≤ sortKey b) }

/-- The byte rendering of a path (`OsStr::as_bytes` of the `PathBuf`):
components joined by `/`. -/
def pathBytes (p : FsPath) : Bytes := List.intercalate [47] p

/-- Modelled from the spec: the byte is one of the shell-special characters
that make the shell-quoting transform quote its input: pipe, ampersand,
semicolon, the angle brackets, the parentheses, dollar, backtick,
backslash, the double and the single quote, space, tab, carriage return,
newline, star, question mark, opening square bracket, hash, tilde, equals,
percent. -/
def isSpecialByte (b : Nat) : Bool :=
  b ∈ ([124, 38, 59, 60, 62, 40, 41, 36, 96, 92, 34, 39,
        32, 9, 13, 10, 42, 63, 91, 35, 126, 61, 37] : List Nat)

/-- Modelled from the spec: inside the double-quoted form, `$`, a backtick,
`"` and `\` are backslash-escaped; every other byte stands for itself. -/
def escByte (b : Nat) : Bytes :=
  if b = 36 ∨ b = 96 ∨ b = 34 ∨ b = 92 then [92, b] else [b]

/-- Modelled from the spec: the shell-quoting transform
(`shlex::bytes::try_quote`, an external collaborator whose source is not in
this repository): it fails exactly on input holding a NUL byte; the empty
input becomes `""`; input free of shell-special bytes is returned verbatim;
any other input is wrapped in double quotes with `$`, backtick, `"` and `\`
backslash-escaped. -/
def tryQuote (p : Bytes) : Option Bytes :=
  if 0 ∈ p then none
  else if p = [] then some [34, 34]
  else if p.any isSpecialByte then some (34 :: p.flatMap escByte ++ [34])
  else some p

/-- The record-writing loop of `Registry::write_all`: each path is rendered
(quoted when `quote` is set) and followed by one separator byte.  The
returned value is the produced output; `none` models the `unwrap` panic
when the shell-quoting transform fails. -/
def writeRecords (sep : Nat) (quote : Bool) : List (Option Int × FsPath) → Option Bytes
  | [] => some []
  | (_, p) :: rest =>
    match (if quote then tryQuote (pathBytes p) else some (pathBytes p)),
          writeRecords sep quote rest with
    | some r, some out => some (r ++ sep :: out)
    | _, _ => none

/-- `Registry::write_all` (src/main.rs lines 115–125): separator `NUL` when
`separator_null` is set, else newline. -/
def Registry.write_all (st : Registry) (separator_null : Bool) (quote : Bool) : Option Bytes :=
  writeRecords (if separator_null then 0 else 10) quote st.registry

/-- A registry state with the given settings and an empty registry and an
empty diagnostics list: the reference state of the frame lemmas below. -/
def base (v : Int) (E : List Bytes) : Registry := ⟨v, E, [], []⟩

/-- The settings of the left state with the rows and diagnostics of the
right state appended: the combinator of the frame lemmas. -/
def joinR (s t : Registry) : Registry :=
  ⟨s.verbosity, s.valid_extensions, s.registry ++ t.registry, s.diags ++ t.diags⟩

/-- A row admitted by `add_file`: the path has an extension that is valid
UTF-8 and belongs to the extension set. -/
def ExtOk (E : List Bytes) (p : FsPath) : Prop :=
  ∃ x, pathExtension p = some x ∧ isValidUtf8 x = true ∧ x ∈ E

/-- The body of the target loop of `populate` for one target, as a
standalone function; `populate_cons` below proves it is what `populate`
runs on each target. -/
def Registry.stepTarget (st : Registry) (p : FsPath) (n : Node) (dohidden : Bool) : Registry :=
  match resolve n with
  | some (.file true mt) => st.add_file p mt
  | some (.dir true rOk l) => st.add_dir p (.dir true rOk l) dohidden
  | _ => st

/-- Decides whether a byte is inter-word whitespace for the tokenizer
(space, tab, newline, carriage return). -/
def isWs (b : Nat) : Bool := b = 32 || b = 9 || b = 10 || b = 13

mutual

/-- Modelled from the spec: a POSIX-shell-compatible tokenizer (the
inverse-check collaborator named by the output round-trip property; no such
code is part of this repository).  `tokStart` reads between words:
whitespace is skipped, `#` opens a comment to end of line, the single and
the double quote open quoted word parts, `\` escapes the next byte,
anything else begins a word. -/
def tokStart : Bytes → Option (List Bytes)
  | [] => some []
  | b :: rest =>
    if isWs b then tokStart rest
    else if b = 35 then tokComment rest
    else if b = 39 then tokSQ [] rest
    else if b = 34 then tokDQ [] rest
    else if b = 92 then tokEsc [] false rest
    else tokWord [b] rest

/-- Modelled from the spec: a `#` comment runs to the end of the line. -/
def tokComment : Bytes → Option (List Bytes)
  | [] => some []
  | b :: rest => if b = 10 then tokStart rest else tokComment rest

/-- Modelled from the spec: inside an unquoted word, whitespace ends the
word, quotes and backslash switch mode, anything else (a mid-word `#`
included) is a literal word byte. -/
def tokWord (acc : Bytes) : Bytes → Option (List Bytes)
  | [] => some [acc]
  | b :: rest =>
    if isWs b then (tokStart rest).map (acc :: ·)
    else if b = 39 then tokSQ acc rest
    else if b = 34 then tokDQ acc rest
    else if b = 92 then tokEsc acc true rest
    else tokWord (acc ++ [b]) rest

/-- Modelled from the spec: inside single quotes every byte is literal
until the closing quote; an unterminated quote is a tokenizer error. -/
def tokSQ (acc : Bytes) : Bytes → Option (List Bytes)
  | [] => none
  | b :: rest => if b = 39 then tokWord acc rest else tokSQ (acc ++ [b]) rest

/-- Modelled from the spec: inside double quotes a backslash escapes `$`,
backtick, `"` and `\`, a backslash-newline vanishes (line continuation), a
backslash before anything else stays literal with the next byte, `"`
closes, and every other byte — newlines included — is literal. -/
def tokDQ (acc : Bytes) : Bytes → Option (List Bytes)
  | [] => none
  | b :: rest =>
    if b = 34 then tokWord acc rest
    else if b = 92 then
      match rest with
      | [] => none
      | c :: rest2 =>
        if c = 36 ∨ c = 96 ∨ c = 34 ∨ c = 92 then tokDQ (acc ++ [c]) rest2
        else if c = 10 then tokDQ acc rest2
        else tokDQ (acc ++ [92, c]) rest2
    else tokDQ (acc ++ [b]) rest

/-- Modelled from the spec: a backslash outside quotes makes the next byte
literal, except that backslash-newline is a line continuation; a trailing
backslash is a tokenizer error. -/
def tokEsc (acc : Bytes) (inWord : Bool) : Bytes → Option (List Bytes)
  | [] => none
  | b :: rest =>
    if b = 10 then (if inWord then tokWord acc rest else tokStart rest)
    else tokWord (acc ++ [b]) rest

end

/-- Modelled from the spec: tokenize a whole input as a POSIX shell would
split it into words. -/
def tokenize (s : Bytes) : Option (List Bytes) := tokStart s

/-- The names of the successfully listed entries of a directory listing. -/
def entryNames (es : List (Option (Bytes × Node))) : List Bytes :=
  es.filterMap (fun e => e.map Prod.fst)

mutual

/-- A filesystem instance an actual Unix filesystem can present: within one
directory the listed entry names are pairwise distinct, recursively, also
through symbolic-link targets. -/
def NodeWF : Node → Bool
  | .file _ _ => true
  | .other _ => true
  | .symlink _ none => true
  | .symlink _ (some t) => NodeWF t
  | .dir _ _ l => decide (entryNames l).Nodup && EntriesWF l

/-- `NodeWF` for every successfully listed child of a listing. -/
def EntriesWF : List (Option (Bytes × Node)) → Bool
  | [] => true
  | none :: rest => EntriesWF rest
  | some (_, c) :: rest => NodeWF c && EntriesWF rest

end


theorem Registry.add_entries_nil (st : Registry) (path : FsPath) (dohidden : Bool) :
    Registry.add_entries st path [] dohidden = st := by
  simp [Registry.add_entries]

theorem Registry.add_entries_cons_none (st : Registry) (path : FsPath)
    (rest : List (Option (Bytes × Node))) (dohidden : Bool) :
    Registry.add_entries st path (none :: rest) dohidden =
      Registry.add_entries (st.emit (.iterFail path)) path rest dohidden := by
  simp [Registry.add_entries]

theorem Registry.add_entries_cons_some (st : Registry) (path : FsPath) (name : Bytes)
    (child : Node) (rest : List (Option (Bytes × Node))) (dohidden : Bool) :
    Registry.add_entries st path (some (name, child) :: rest) dohidden =
      Registry.add_entries (st.stepEntry path name child dohidden) path rest dohidden := by
  simp [Registry.add_entries, Registry.stepEntry]

@[simp] theorem base_verbosity (v : Int) (E : List Bytes) : (base v E).verbosity = v := rfl

@[simp] theorem base_valid_extensions (v : Int) (E : List Bytes) :
    (base v E).valid_extensions = E := rfl

@[simp] theorem base_registry (v : Int) (E : List Bytes) : (base v E).registry = [] := rfl

@[simp] theorem base_diags (v : Int) (E : List Bytes) : (base v E).diags = [] := rfl

@[simp] theorem Registry.emit_verbosity (st : Registry) (d : Diag) :
    (st.emit d).verbosity = st.verbosity := by
  unfold Registry.emit; split <;> rfl

@[simp] theorem Registry.emit_valid_extensions (st : Registry) (d : Diag) :
    (st.emit d).valid_extensions = st.valid_extensions := by
  unfold Registry.emit; split <;> rfl

@[simp] theorem Registry.emit_registry (st : Registry) (d : Diag) :
    (st.emit d).registry = st.registry := by
  unfold Registry.emit; split <;> rfl

theorem Registry.emit_diags (st : Registry) (d : Diag) :
    (st.emit d).diags = st.diags ++ (if st.verbosity ≥ 0 then [d] else []) := by
  unfold Registry.emit; split <;> simp_all

@[simp] theorem joinR_verbosity (s t : Registry) : (joinR s t).verbosity = s.verbosity := rfl

@[simp] theorem joinR_valid_extensions (s t : Registry) :
    (joinR s t).valid_extensions = s.valid_extensions := rfl

@[simp] theorem joinR_registry (s t : Registry) :
    (joinR s t).registry = s.registry ++ t.registry := rfl

@[simp] theorem joinR_diags (s t : Registry) : (joinR s t).diags = s.diags ++ t.diags := rfl

theorem Registry.emit_frame (st : Registry) (d : Diag) :
    st.emit d = joinR st ((base st.verbosity st.valid_extensions).emit d) := by
  by_cases h : st.verbosity ≥ 0 <;> simp [Registry.emit, base, joinR, h]

theorem Registry.add_file_frame (st : Registry) (p : FsPath) (md : Option Int) :
    st.add_file p md = joinR st ((base st.verbosity st.valid_extensions).add_file p md) := by
  unfold Registry.add_file
  cases hx : pathExtension p with
  | none => simp [base, joinR]
  | some ext =>
    by_cases hv : isValidUtf8 ext
    · by_cases hm : ext ∈ st.valid_extensions <;> simp [base, joinR, hv, hm]
    · by_cases h0 : st.verbosity ≥ 0 <;> simp [base, joinR, hv, Registry.emit, h0]

theorem Registry.add_entries_frame (st0 : Registry) (path : FsPath)
    (es : List (Option (Bytes × Node))) (dh : Bool) :
    ∀ s : Registry, Registry.add_entries s path es dh =
      joinR s (Registry.add_entries (base s.verbosity s.valid_extensions) path es dh) := by
  refine Registry.add_entries.induct
    (fun _ path n dh => ∀ s : Registry, Registry.add_dir s path n dh =
      joinR s (Registry.add_dir (base s.verbosity s.valid_extensions) path n dh))
    (fun _ path es dh => ∀ s : Registry, Registry.add_entries s path es dh =
      joinR s (Registry.add_entries (base s.verbosity s.valid_extensions) path es dh))
    ?_ ?_ ?_ ?_ ?_ st0 path es dh
  · intro st path dh so listing ih s
    simp only [Registry.add_dir]
    exact ih s
  · intro t st path dh h s
    cases t with
    | dir so ro l =>
      cases ro with
      | true => exact (h so l rfl).elim
      | false => simp only [Registry.add_dir]; exact Registry.emit_frame s _
    | file so mt => simp only [Registry.add_dir]; exact Registry.emit_frame s _
    | symlink so tgt => simp only [Registry.add_dir]; exact Registry.emit_frame s _
    | other so => simp only [Registry.add_dir]; exact Registry.emit_frame s _
  · intro st path dh s
    simp only [Registry.add_entries_nil]
    cases s with
    | mk v E r d => simp [joinR, base]
  · intro st path dh rest ih s
    rw [Registry.add_entries_cons_none]
    rw [ih (s.emit (Diag.iterFail path))]
    rw [Registry.emit_frame s]
    conv_rhs => rw [Registry.add_entries_cons_none]
    conv_rhs =>
      rw [ih ((base s.verbosity s.valid_extensions).emit (Diag.iterFail path))]
    conv_rhs =>
      rw [Registry.emit_frame (base s.verbosity s.valid_extensions)]
    simp [joinR, base]
  · intro st path dh name child rest st2 ihdir ihrest s
    have hstep : ∀ u : Registry, u.stepEntry path name child dh =
        joinR u ((base u.verbosity u.valid_extensions).stepEntry path name child dh) := by
      intro u
      unfold Registry.stepEntry
      by_cases h1 : hiddenSkip dh name
      · simp only [h1, if_true]
        cases u with
        | mk v E r d => simp [joinR, base]
      · simp only [h1, if_false]
        by_cases h2 : !lstatOk child
        · simp only [h2, if_true]
          exact Registry.emit_frame u _
        · simp only [h2, if_false]
          by_cases h3 : isSymlinkNode child
          · simp only [h3, if_true]
            cases u with
            | mk v E r d => simp [joinR, base]
          · simp only [h3, if_false]
            by_cases h4 : isFileNode child
            · simp only [h4, if_true]
              exact Registry.add_file_frame u _ _
            · simp only [h4, if_false]
              by_cases h5 : isDirNode child
              · simp only [h5, if_true]
                exact ihdir u
              · simp only [h5, if_false]
                cases u with
                | mk v E r d => simp [joinR, base]
    have hcons : ∀ u : Registry, Registry.add_entries u path (some (name, child) :: rest) dh =
        Registry.add_entries (u.stepEntry path name child dh) path rest dh :=
      fun u => Registry.add_entries_cons_some u path name child rest dh
    rw [hcons s, hstep s]
    rw [ihrest (joinR s ((base s.verbosity s.valid_extensions).stepEntry path name child dh))]
    conv_rhs => rw [hcons (base s.verbosity s.valid_extensions)]
    conv_rhs => rw [hstep (base s.verbosity s.valid_extensions)]
    conv_rhs =>
      rw [ihrest (joinR (base s.verbosity s.valid_extensions)
        ((base (base s.verbosity s.valid_extensions).verbosity
          (base s.verbosity s.valid_extensions).valid_extensions).stepEntry path name child dh))]
    simp [joinR, base]

theorem Registry.add_dir_frame (path : FsPath) (n : Node) (dh : Bool) :
    ∀ s : Registry, Registry.add_dir s path n dh =
      joinR s (Registry.add_dir (base s.verbosity s.valid_extensions) path n dh) := by
  intro s
  cases n with
  | dir so ro l =>
    cases ro with
    | true =>
      simp only [Registry.add_dir]
      exact Registry.add_entries_frame s path l dh s
    | false => simp only [Registry.add_dir]; exact Registry.emit_frame s _
  | file so mt => simp only [Registry.add_dir]; exact Registry.emit_frame s _
  | symlink so tgt => simp only [Registry.add_dir]; exact Registry.emit_frame s _
  | other so => simp only [Registry.add_dir]; exact Registry.emit_frame s _

theorem Registry.stepEntry_frame (path : FsPath) (name : Bytes) (child : Node) (dh : Bool)
    (u : Registry) : u.stepEntry path name child dh =
      joinR u ((base u.verbosity u.valid_extensions).stepEntry path name child dh) := by
  unfold Registry.stepEntry
  by_cases h1 : hiddenSkip dh name
  · simp only [h1, if_true]
    cases u with
    | mk v E r d => simp [joinR, base]
  · simp only [h1, if_false]
    by_cases h2 : !lstatOk child
    · simp only [h2, if_true]
      exact Registry.emit_frame u _
    · simp only [h2, if_false]
      by_cases h3 : isSymlinkNode child
      · simp only [h3, if_true]
        cases u with
        | mk v E r d => simp [joinR, base]
      · simp only [h3, if_false]
        by_cases h4 : isFileNode child
        · simp only [h4, if_true]
          exact Registry.add_file_frame u _ _
        · simp only [h4, if_false]
          by_cases h5 : isDirNode child
          · simp only [h5, if_true]
            exact Registry.add_dir_frame _ child dh u
          · simp only [h5, if_false]
            cases u with
            | mk v E r d => simp [joinR, base]

theorem Registry.add_entries_valid_extensions (s : Registry) (path : FsPath)
    (es : List (Option (Bytes × Node))) (dh : Bool) :
    (Registry.add_entries s path es dh).valid_extensions = s.valid_extensions := by
  rw [Registry.add_entries_frame s path es dh s]; rfl

theorem Registry.add_entries_registry_decomp (s : Registry) (path : FsPath)
    (es : List (Option (Bytes × Node))) (dh : Bool) :
    (Registry.add_entries s path es dh).registry = s.registry ++
      (Registry.add_entries (base s.verbosity s.valid_extensions) path es dh).registry := by
  rw [Registry.add_entries_frame s path es dh s]; rfl

theorem Registry.add_dir_registry_decomp (s : Registry) (path : FsPath) (n : Node) (dh : Bool) :
    (Registry.add_dir s path n dh).registry = s.registry ++
      (Registry.add_dir (base s.verbosity s.valid_extensions) path n dh).registry := by
  rw [Registry.add_dir_frame path n dh s]; rfl

theorem Registry.stepEntry_valid_extensions (s : Registry) (path : FsPath) (name : Bytes)
    (child : Node) (dh : Bool) :
    (s.stepEntry path name child dh).valid_extensions = s.valid_extensions := by
  rw [Registry.stepEntry_frame path name child dh s]; rfl

theorem Registry.add_file_mem (st : Registry) (p : FsPath) (md : Option Int)
    (e : Option Int × FsPath) (h : e ∈ (st.add_file p md).registry) :
    e ∈ st.registry ∨ (e = (md, p) ∧ ExtOk st.valid_extensions p) := by
  unfold Registry.add_file at h
  cases hx : pathExtension p with
  | none => rw [hx] at h; exact Or.inl h
  | some ext =>
    rw [hx] at h
    by_cases hv : isValidUtf8 ext
    · by_cases hm : ext ∈ st.valid_extensions
      · simp only [hv, if_true, hm] at h
        rcases List.mem_append.mp h with h | h
        · exact Or.inl h
        · refine Or.inr ⟨List.mem_singleton.mp h, ext, hx, hv, hm⟩
      · simp only [hv, if_true, hm, if_false] at h
        exact Or.inl h
    · simp only [hv, Bool.false_eq_true, if_false] at h
      rw [Registry.emit_registry] at h
      exact Or.inl h

theorem startsWithDot_of_not_hiddenSkip {name : Bytes}
    (h : hiddenSkip false name = false) : startsWithDot name = false := by
  by_cases hn : name = [] ∨ name = [46, 46]
  · simp [hiddenSkip, fileNameSeg, hn] at h
  · simpa [hiddenSkip, fileNameSeg, hn] using h

/-- Shape of every row the traversal of one directory adds: it was already
present, or it is an admitted file strictly below `path` whose relative
segments are all unhidden when `dohidden` is off. -/
theorem Registry.add_entries_mem (path : FsPath) (es : List (Option (Bytes × Node)))
    (dh : Bool) :
    ∀ (st : Registry) (e : Option Int × FsPath),
      e ∈ (Registry.add_entries st path es dh).registry →
      e ∈ st.registry ∨
        (ExtOk st.valid_extensions e.2 ∧
          ∃ rel, rel ≠ [] ∧ e.2 = path ++ rel ∧
            (dh = false → ∀ seg ∈ rel, startsWithDot seg = false)) := by
  refine Registry.add_entries.induct
    (fun _ path n dh => ∀ (st : Registry) (e : Option Int × FsPath),
      e ∈ (Registry.add_dir st path n dh).registry →
      e ∈ st.registry ∨
        (ExtOk st.valid_extensions e.2 ∧
          ∃ rel, rel ≠ [] ∧ e.2 = path ++ rel ∧
            (dh = false → ∀ seg ∈ rel, startsWithDot seg = false)))
    (fun _ path es dh => ∀ (st : Registry) (e : Option Int × FsPath),
      e ∈ (Registry.add_entries st path es dh).registry →
      e ∈ st.registry ∨
        (ExtOk st.valid_extensions e.2 ∧
          ∃ rel, rel ≠ [] ∧ e.2 = path ++ rel ∧
            (dh = false → ∀ seg ∈ rel, startsWithDot seg = false)))
    ?_ ?_ ?_ ?_ ?_ ⟨0, [], [], []⟩ path es dh
  · intro st path dh so listing ih s e h
    simp only [Registry.add_dir] at h
    exact ih s e h
  · intro t st path dh ht s e h
    cases t with
    | dir so ro l =>
      cases ro with
      | true => exact (ht so l rfl).elim
      | false =>
        simp only [Registry.add_dir, Registry.emit_registry] at h
        exact Or.inl h
    | file so mt =>
      simp only [Registry.add_dir, Registry.emit_registry] at h; exact Or.inl h
    | symlink so tgt =>
      simp only [Registry.add_dir, Registry.emit_registry] at h; exact Or.inl h
    | other so =>
      simp only [Registry.add_dir, Registry.emit_registry] at h; exact Or.inl h
  · intro st path dh s e h
    rw [Registry.add_entries_nil] at h
    exact Or.inl h
  · intro st path dh rest ih s e h
    rw [Registry.add_entries_cons_none] at h
    rcases ih (s.emit (Diag.iterFail path)) e h with h | h
    · rw [Registry.emit_registry] at h; exact Or.inl h
    · rw [Registry.emit_valid_extensions] at h; exact Or.inr h
  · intro st path dh name child rest st2 ihdir ihrest s e h
    rw [Registry.add_entries_cons_some] at h
    rcases ihrest (s.stepEntry path name child dh) e h with h | h
    · -- the row came from processing this entry
      unfold Registry.stepEntry at h
      split at h
      · exact Or.inl h
      next h1 =>
        split at h
        · rw [Registry.emit_registry] at h; exact Or.inl h
        · split at h
          · exact Or.inl h
          · split at h
            next h4 =>
              rcases Registry.add_file_mem s _ _ e h with h | ⟨he, hok⟩
              · exact Or.inl h
              · refine Or.inr ⟨by rw [he]; exact hok, [name], by simp, by rw [he], ?_⟩
                intro hdh seg hseg
                rw [List.mem_singleton.mp hseg]
                exact startsWithDot_of_not_hiddenSkip (by rw [hdh] at h1; simpa using h1)
            next h4 =>
              split at h
              next h5 =>
                rcases ihdir s e h with h | ⟨hok, rel, hrel, hp, hclean⟩
                · exact Or.inl h
                · refine Or.inr ⟨hok, name :: rel, by simp, by
                    rw [hp, List.append_assoc]; rfl, ?_⟩
                  intro hdh seg hseg
                  rcases List.mem_cons.mp hseg with hseg | hseg
                  · rw [hseg]
                    exact startsWithDot_of_not_hiddenSkip (by rw [hdh] at h1; simpa using h1)
                  · exact hclean hdh seg hseg
              next h5 => exact Or.inl h
    · -- the row came from the remaining entries
      rw [Registry.stepEntry_valid_extensions] at h
      exact Or.inr h

theorem Registry.populate_nil (st : Registry) (dh : Bool) : st.populate [] dh = st := by
  simp [Registry.populate]

theorem Registry.populate_cons (st : Registry) (p : FsPath) (n : Node)
    (rest : List (FsPath × Node)) (dh : Bool) :
    st.populate ((p, n) :: rest) dh =
      Registry.populate (st.stepTarget p n dh) rest dh := by
  cases hr : resolve n with
  | none => simp [Registry.populate, Registry.stepTarget, hr]
  | some m =>
    cases m with
    | file so mt => cases so <;> simp [Registry.populate, Registry.stepTarget, hr]
    | dir so ro l => cases so <;> simp [Registry.populate, Registry.stepTarget, hr]
    | symlink so tgt => simp [Registry.populate, Registry.stepTarget, hr]
    | other so => simp [Registry.populate, Registry.stepTarget, hr]

theorem Registry.add_file_valid_extensions (st : Registry) (p : FsPath) (md : Option Int) :
    (st.add_file p md).valid_extensions = st.valid_extensions := by
  rw [Registry.add_file_frame]; rfl

theorem Registry.add_dir_valid_extensions (s : Registry) (path : FsPath) (n : Node)
    (dh : Bool) : (Registry.add_dir s path n dh).valid_extensions = s.valid_extensions := by
  rw [Registry.add_dir_frame path n dh s]; rfl

theorem Registry.stepTarget_valid_extensions (st : Registry) (p : FsPath) (n : Node)
    (dh : Bool) : (st.stepTarget p n dh).valid_extensions = st.valid_extensions := by
  unfold Registry.stepTarget
  split
  · exact Registry.add_file_valid_extensions st _ _
  · exact Registry.add_dir_valid_extensions st _ _ _
  · rfl

theorem Registry.add_dir_mem (path : FsPath) (n : Node) (dh : Bool) (st : Registry)
    (e : Option Int × FsPath) (h : e ∈ (st.add_dir path n dh).registry) :
    e ∈ st.registry ∨
      (ExtOk st.valid_extensions e.2 ∧
        ∃ rel, rel ≠ [] ∧ e.2 = path ++ rel ∧
          (dh = false → ∀ seg ∈ rel, startsWithDot seg = false)) := by
  cases n with
  | dir so ro l =>
    cases ro with
    | true =>
      simp only [Registry.add_dir] at h
      exact Registry.add_entries_mem path l dh st e h
    | false =>
      simp only [Registry.add_dir, Registry.emit_registry] at h; exact Or.inl h
  | file so mt => simp only [Registry.add_dir, Registry.emit_registry] at h; exact Or.inl h
  | symlink so tgt => simp only [Registry.add_dir, Registry.emit_registry] at h; exact Or.inl h
  | other so => simp only [Registry.add_dir, Registry.emit_registry] at h; exact Or.inl h

/-- Shape of every row `populate` adds: an admitted file at or below some
target, whose below-target segments are all unhidden when `dohidden` is
off. -/
theorem Registry.populate_mem (targets : List (FsPath × Node)) (dh : Bool) :
    ∀ (st : Registry) (e : Option Int × FsPath),
      e ∈ (st.populate targets dh).registry →
      e ∈ st.registry ∨
        (ExtOk st.valid_extensions e.2 ∧
          ∃ t, t ∈ targets ∧ ∃ rel, e.2 = t.1 ++ rel ∧
            (dh = false → ∀ seg ∈ rel, startsWithDot seg = false)) := by
  induction targets with
  | nil =>
    intro st e h
    rw [Registry.populate_nil] at h
    exact Or.inl h
  | cons t rest ih =>
    obtain ⟨p, n⟩ := t
    intro st e h
    rw [Registry.populate_cons] at h
    rcases ih (st.stepTarget p n dh) e h with h | ⟨hok, t, ht, rel, hrel, hclean⟩
    · unfold Registry.stepTarget at h
      split at h
      next mt heq =>
        rcases Registry.add_file_mem st _ _ e h with h | ⟨he, hok⟩
        · exact Or.inl h
        · exact Or.inr ⟨by rw [he]; exact hok, (p, n), List.mem_cons_self _ _,
            [], by rw [he]; simp, by intro _ seg hseg; exact absurd hseg (by simp)⟩
      next rOk l heq =>
        rcases Registry.add_dir_mem p _ dh st e h with h | ⟨hok, rel, hrel, hp, hclean⟩
        · exact Or.inl h
        · exact Or.inr ⟨hok, (p, n), List.mem_cons_self _ _, rel, hp, hclean⟩
      next => exact Or.inl h
    · rw [Registry.stepTarget_valid_extensions] at hok
      exact Or.inr ⟨hok, t, List.mem_cons_of_mem _ ht, rel, hrel, hclean⟩

/-- C1: every row the traversal appends to the registry has an extension
(in the sense of `Path::extension`) that is a member of the configured
extension set under exact byte-for-byte (hence case-sensitive, dotless)
comparison; and a path with no extension is rejected with no state change
at all — no row and no diagnostic — whatever the verbosity. -/
theorem c1_extension_filter (v : Int) (E : List Bytes) (targets : List (FsPath × Node))
    (dh : Bool) :
    (∀ e ∈ ((Registry.new v E).populate targets dh).registry,
        ∃ x, pathExtension e.2 = some x ∧ x ∈ E) ∧
    (∀ (st : Registry) (p : FsPath) (md : Option Int),
        pathExtension p = none → st.add_file p md = st) := by
  constructor
  · intro e h
    rcases Registry.populate_mem targets dh (Registry.new v E) e h with
      h | ⟨⟨x, hx, hvx, hm⟩, _⟩
    · simp [Registry.new] at h
    · exact ⟨x, hx, hm⟩
  · intro st p md h
    unfold Registry.add_file
    rw [h]

theorem c1_extension_filter_witness :
    (∃ x, pathExtension [[97, 46, 106, 112, 103]] = some x ∧ x ∈ [[106, 112, 103]]) ∧
    Registry.add_file (Registry.new 0 []) [[97]] none = Registry.new 0 [] :=
  ⟨(c1_extension_filter 0 [[106, 112, 103]]
      [([[97, 46, 106, 112, 103]], .file true (some 5))] false).1
      (some 5, [[97, 46, 106, 112, 103]]) (by decide),
   (c1_extension_filter 0 [] [] false).2 (Registry.new 0 []) [[97]] none (by decide)⟩

/-- C2: an entry met during directory descent whose `symlink_metadata` says
it is a symbolic link contributes nothing to the registry — it is neither
appended nor descended into — whatever it points to and whatever the
configuration flags are. -/
theorem c2_symlink_skip (st : Registry) (path : FsPath) (name : Bytes) (s : Bool)
    (tgt : Option Node) (rest : List (Option (Bytes × Node))) (dh : Bool) :
    (Registry.add_entries st path (some (name, .symlink s tgt) :: rest) dh).registry =
      (Registry.add_entries st path rest dh).registry := by
  rw [Registry.add_entries_cons_some]
  have hstep : st.stepEntry path name (.symlink s tgt) dh = st ∨
      st.stepEntry path name (.symlink s tgt) dh = st.emit (.statFail (path ++ [name])) := by
    cases s with
    | true => exact Or.inl (by simp [Registry.stepEntry, lstatOk, isSymlinkNode])
    | false =>
      by_cases h1 : hiddenSkip dh name
      · exact Or.inl (by simp [Registry.stepEntry, h1])
      · exact Or.inr (by simp [Registry.stepEntry, h1, lstatOk])
  rcases hstep with h | h <;> rw [h]
  rw [Registry.add_entries_registry_decomp (st.emit (Diag.statFail (path ++ [name])))
        path rest dh,
      Registry.add_entries_registry_decomp st path rest dh]
  simp

/-- C3: with `dohidden` off, every row comes from a target extended only by
segments that do not start with `.`; during descent an entry whose name is
undeterminable is treated as hidden, a hidden-treated entry is skipped
outright; and the hidden test is never applied to an explicit top-level
target, which is admitted through the extension filter whatever its name. -/
theorem c3_hidden_policy :
    (∀ (v : Int) (E : List Bytes) (targets : List (FsPath × Node))
        (e : Option Int × FsPath),
        e ∈ ((Registry.new v E).populate targets false).registry →
        ∃ t, t ∈ targets ∧ ∃ rel, e.2 = t.1 ++ rel ∧
          ∀ seg ∈ rel, startsWithDot seg = false) ∧
    (∀ name : Bytes, fileNameSeg name = none → hiddenSkip false name = true) ∧
    (∀ (st : Registry) (path : FsPath) (name : Bytes) (child : Node)
        (rest : List (Option (Bytes × Node))),
        hiddenSkip false name = true →
        Registry.add_entries st path (some (name, child) :: rest) false =
          Registry.add_entries st path rest false) ∧
    (∀ (st : Registry) (p : FsPath) (mt : Option Int) (dh : Bool),
        st.populate [(p, Node.file true mt)] dh = st.add_file p mt) := by
  refine ⟨?_, ?_, ?_, ?_⟩
  · intro v E targets e h
    rcases Registry.populate_mem targets false (Registry.new v E) e h with
      h | ⟨_, t, ht, rel, hrel, hclean⟩
    · simp [Registry.new] at h
    · exact ⟨t, ht, rel, hrel, hclean rfl⟩
  · intro name h
    simp [hiddenSkip, h]
  · intro st path name child rest h
    rw [Registry.add_entries_cons_some]
    have : st.stepEntry path name child false = st := by
      unfold Registry.stepEntry
      rw [if_pos h]
    rw [this]
  · intro st p mt dh
    rw [Registry.populate_cons, Registry.populate_nil]
    rfl

theorem c3_hidden_policy_witness :
    (∃ t, t ∈ [([[100]], Node.dir true true
        [some ([97, 46, 106, 112, 103], Node.file true (some 3))])] ∧
      ∃ rel, ([[100], [97, 46, 106, 112, 103]] : FsPath) = t.1 ++ rel ∧
        ∀ seg ∈ rel, startsWithDot seg = false) ∧
    hiddenSkip false [46, 46] = true ∧
    Registry.add_entries (Registry.new 0 []) []
        (some ([46, 97], Node.file true none) :: []) false =
      Registry.add_entries (Registry.new 0 []) [] [] false ∧
    Registry.populate (Registry.new 0 []) [([[46, 97]], Node.file true none)] false =
      Registry.add_file (Registry.new 0 []) [[46, 97]] none :=
  ⟨c3_hidden_policy.1 0 [[106, 112, 103]]
      [([[100]], Node.dir true true
        [some ([97, 46, 106, 112, 103], Node.file true (some 3))])]
      (some 3, [[100], [97, 46, 106, 112, 103]]) (by decide),
   c3_hidden_policy.2.1 [46, 46] (by decide),
   c3_hidden_policy.2.2.1 (Registry.new 0 []) [] [46, 97] (Node.file true none) []
      (by decide),
   c3_hidden_policy.2.2.2 (Registry.new 0 []) [[46, 97]] none false⟩

theorem sortKey_trans (a b c : Option Int × FsPath)
    (hab : decide (sortKey a ≤ sortKey b) = true)
    (hbc : decide (sortKey b ≤ sortKey c) = true) :
    decide (sortKey a ≤ sortKey c) = true := by
  simp only [decide_eq_true_eq] at *
  omega

theorem sortKey_total (a b : Option Int × FsPath) :
    (decide (sortKey a ≤ sortKey b) || decide (sortKey b ≤ sortKey a)) = true := by
  simp only [Bool.or_eq_true, decide_eq_true_eq]
  omega

/-- A stable sort leaves each equal-key fibre of the list untouched. -/
theorem filter_mergeSort_sortKey (l : List (Option Int × FsPath)) (k : Int) :
    (l.mergeSort (fun a b => sortKey a ≤ sortKey b)).filter (fun e => sortKey e = k) =
      l.filter (fun e => sortKey e = k) := by
  have hpair : (l.filter (fun e => sortKey e = k)).Pairwise
      (fun a b => decide (sortKey a ≤ sortKey b) = true) := by
    apply List.pairwise_of_forall_mem_list
    intro a ha b hb
    have ha2 := (List.mem_filter.mp ha).2
    have hb2 := (List.mem_filter.mp hb).2
    simp only [decide_eq_true_eq] at *
    omega
  have hsub : List.Sublist (l.filter (fun e => sortKey e = k))
      (l.mergeSort (fun a b => sortKey a ≤ sortKey b)) :=
    List.sublist_mergeSort sortKey_trans sortKey_total hpair (List.filter_sublist l)
  have h1 : (l.filter (fun e => sortKey e = k)).filter (fun e => sortKey e = k) =
      l.filter (fun e => sortKey e = k) :=
    List.filter_eq_self.mpr (fun a ha => (List.mem_filter.mp ha).2)
  have h2 : List.Sublist (l.filter (fun e => sortKey e = k))
      ((l.mergeSort (fun a b => sortKey a ≤ sortKey b)).filter (fun e => sortKey e = k)) :=
    h1 ▸ hsub.filter (fun e => sortKey e = k)
  have h3 : List.Perm ((l.mergeSort (fun a b => sortKey a ≤ sortKey b)).filter
        (fun e => sortKey e = k)) (l.filter (fun e => sortKey e = k)) :=
    (List.mergeSort_perm l _).filter _
  exact (h2.eq_of_length h3.length_eq.symm).symm

/-- C4 counterexample: a registry holding a pre-epoch-modified file (key
`-1`) before a file of unknown modification time (key `0`, the epoch) is
already sorted, so the unknown-time row stays second — it does not sort
first, against the claim that an unknown time "therefore sorts first". -/
theorem c4_sort_counterexample :
    (Registry.sort_by_modified ⟨0, [], [(some (-1), [[97]]), (none, [[98]])], []⟩).registry =
      [(some (-1), [[97]]), (none, [[98]])] ∧
    sortKey (some (-1), [[97]]) < sortKey ((none : Option Int), [[98]]) := by
  constructor
  · show List.mergeSort _ _ = _
    exact List.mergeSort_of_sorted (by decide)
  · decide

/-- C4 (amended): `sort_by_modified` reorders the registry into
non-decreasing order of the key modified-time-or-epoch, permuting the rows;
an unobtainable modification time is assigned the Unix epoch (key `0`); the
sort is stable — every equal-key fibre is preserved, so equal-key rows keep
their discovery order; and an unknown-time row sorts before every row whose
timestamp is at or after the epoch (it sorts first among such rows, though
not before a pre-epoch timestamp). -/
theorem c4_sort_by_modified (st : Registry) :
    (st.sort_by_modified).registry.Pairwise (fun a b => sortKey a ≤ sortKey b) ∧
    List.Perm (st.sort_by_modified).registry st.registry ∧
    (∀ k : Int, (st.sort_by_modified).registry.filter (fun e => sortKey e = k) =
        st.registry.filter (fun e => sortKey e = k)) ∧
    (∀ p : FsPath, sortKey (none, p) = 0) ∧
    (∀ (p : FsPath) (e : Option Int × FsPath),
        0 ≤ sortKey e → sortKey (none, p) ≤ sortKey e) := by
  refine ⟨?_, ?_, ?_, fun p => rfl, fun p e h => h⟩
  · have := List.sorted_mergeSort sortKey_trans sortKey_total st.registry
    exact this.imp (fun h => by simpa using h)
  · exact List.mergeSort_perm st.registry _
  · intro k
    exact filter_mergeSort_sortKey st.registry k

theorem c4_sort_by_modified_witness :
    sortKey ((none : Option Int), ([[98]] : FsPath)) ≤ sortKey ((some 7 : Option Int), ([[97]] : FsPath)) :=
  (c4_sort_by_modified (Registry.new 0 [])).2.2.2.2 [[98]] (some 7, [[97]]) (by decide)

theorem tryQuote_some_of_not_nul (p : Bytes) (h : 0 ∉ p) : ∃ q, tryQuote p = some q := by
  unfold tryQuote
  rw [if_neg h]
  by_cases he : p = []
  · rw [if_pos he]; exact ⟨_, rfl⟩
  · rw [if_neg he]
    by_cases hs : p.any isSpecialByte
    · rw [if_pos hs]; exact ⟨_, rfl⟩
    · rw [if_neg hs]; exact ⟨_, rfl⟩

theorem tryQuote_not_mem (p q : Bytes) (hq : tryQuote p = some q) (b : Nat)
    (hb : b ∉ p) (hb34 : b ≠ 34) (hb92 : b ≠ 92) : b ∉ q := by
  unfold tryQuote at hq
  by_cases h0 : 0 ∈ p
  · rw [if_pos h0] at hq; cases hq
  · rw [if_neg h0] at hq
    by_cases he : p = []
    · rw [if_pos he] at hq
      cases hq
      intro hmem
      rcases List.mem_cons.mp hmem with h | h
      · exact hb34 h
      · exact hb34 (List.mem_singleton.mp h)
    · rw [if_neg he] at hq
      by_cases hs : p.any isSpecialByte
      · rw [if_pos hs] at hq
        cases hq
        intro hmem
        rcases List.mem_cons.mp hmem with h | h
        · exact hb34 h
        · rcases List.mem_append.mp h with h | h
          · rcases List.mem_flatMap.mp h with ⟨a, ha, hesc⟩
            unfold escByte at hesc
            split at hesc
            · rcases List.mem_cons.mp hesc with h | h
              · exact hb92 h
              · exact hb (List.mem_singleton.mp h ▸ ha)
            · exact hb (List.mem_singleton.mp hesc ▸ ha)
          · exact hb34 (List.mem_singleton.mp h)
      · rw [if_neg hs] at hq
        cases hq
        exact hb

/-- What one run of the record loop produces when the separator can occur
in no rendered record: each record followed by one separator, and exactly
one separator per row. -/
theorem writeRecords_spec (sep : Nat) (q : Bool) (hsep34 : sep ≠ 34) (hsep92 : sep ≠ 92) :
    ∀ l : List (Option Int × FsPath),
      (q = true → ∀ e ∈ l, 0 ∉ pathBytes e.2) →
      (∀ e ∈ l, sep ∉ pathBytes e.2) →
      ∃ (out : Bytes) (recs : List Bytes), writeRecords sep q l = some out ∧
        recs.length = l.length ∧
        out = (recs.map (fun r => r ++ [sep])).flatten ∧
        (∀ r ∈ recs, sep ∉ r) ∧
        out.count sep = l.length := by
  intro l
  induction l with
  | nil => intro _ _; exact ⟨[], [], rfl, rfl, rfl, by simp, by simp⟩
  | cons e rest ih =>
    intro hnul hsep
    obtain ⟨md, p⟩ := e
    have hrender : ∃ r, (if q then tryQuote (pathBytes p) else some (pathBytes p)) = some r ∧
        sep ∉ r := by
      cases q with
      | false => exact ⟨pathBytes p, rfl, hsep (md, p) (List.mem_cons_self _ _)⟩
      | true =>
        obtain ⟨r, hr⟩ := tryQuote_some_of_not_nul (pathBytes p)
          (hnul rfl (md, p) (List.mem_cons_self _ _))
        exact ⟨r, by rw [if_pos rfl]; exact hr,
          tryQuote_not_mem _ _ hr sep (hsep (md, p) (List.mem_cons_self _ _)) hsep34 hsep92⟩
    obtain ⟨r, hr, hrsep⟩ := hrender
    obtain ⟨out, recs, hout, hlen, hflat, hrecs, hcount⟩ := ih
      (fun hq e he => hnul hq e (List.mem_cons_of_mem _ he))
      (fun e he => hsep e (List.mem_cons_of_mem _ he))
    refine ⟨r ++ sep :: out, r :: recs, ?_, by simp [hlen], ?_, ?_, ?_⟩
    · unfold writeRecords
      rw [hr, hout]
    · simp [hflat]
    · intro x hx
      rcases List.mem_cons.mp hx with hx | hx
      · rw [hx]; exact hrsep
      · exact hrecs x hx
    · rw [List.count_append, List.count_cons]
      rw [List.count_eq_zero.mpr hrsep, hcount]
      simp

/-- C6 counterexample: a registry holding the single file `a\nb` (a legal
Unix file name with an embedded newline), written with the newline
separator and no quoting, produces output holding two newline bytes — not
exactly one separator per record as the claim states for every registry. -/
theorem c6_separator_counterexample :
    Registry.write_all ⟨0, [], [(none, [[97, 10, 98]])], []⟩ false false =
        some [97, 10, 98, 10] ∧
      List.count 10 [97, 10, 98, 10] = 2 ∧
      ([(none, ([[97, 10, 98]] : FsPath))] : List (Option Int × FsPath)).length = 1 := by
  refine ⟨by decide, by decide, rfl⟩

/-- C6 (amended): when no registry path contains the separator byte — and,
under quoting, no path contains NUL — `write_all` succeeds and its output
is exactly each rendered record followed by one separator, the separator
occurs in no record, and the output holds exactly one separator per row. -/
theorem c6_separator_exact (st : Registry) (sn q : Bool)
    (hnul : q = true → ∀ e ∈ st.registry, 0 ∉ pathBytes e.2)
    (hsep : ∀ e ∈ st.registry, (if sn then 0 else 10) ∉ pathBytes e.2) :
    ∃ (out : Bytes) (recs : List Bytes), st.write_all sn q = some out ∧
      recs.length = st.registry.length ∧
      out = (recs.map (fun r => r ++ [if sn then 0 else 10])).flatten ∧
      (∀ r ∈ recs, (if sn then 0 else 10) ∉ r) ∧
      out.count (if sn then 0 else 10) = st.registry.length := by
  have := writeRecords_spec (if sn then 0 else 10) q
    (by cases sn <;> simp) (by cases sn <;> simp) st.registry hnul hsep
  exact this

theorem c6_separator_exact_witness :
    ∃ (out : Bytes) (recs : List Bytes),
      Registry.write_all ⟨0, [], [(none, [[97, 46, 106, 112, 103]])], []⟩ false true =
          some out ∧
        recs.length = 1 ∧
        out = (recs.map (fun r => r ++ [10])).flatten ∧
        (∀ r ∈ recs, 10 ∉ r) ∧
        out.count 10 = 1 :=
  c6_separator_exact ⟨0, [], [(none, [[97, 46, 106, 112, 103]])], []⟩ false true
    (by decide) (by decide)

/-- C10: with quoting on, `write_all` cannot hit the `unwrap` panic when no
registry path holds a NUL byte: the shell-quoting transform then always
succeeds and the whole output is produced. -/
theorem writeRecords_some_of_no_nul (sep : Nat) :
    ∀ l : List (Option Int × FsPath), (∀ e ∈ l, 0 ∉ pathBytes e.2) →
      ∃ out, writeRecords sep true l = some out := by
  intro l
  induction l with
  | nil => exact fun _ => ⟨[], rfl⟩
  | cons e rest ih =>
    intro h
    obtain ⟨md, p⟩ := e
    obtain ⟨r, hr⟩ := tryQuote_some_of_not_nul (pathBytes p) (h (md, p) (List.mem_cons_self _ _))
    obtain ⟨out, hout⟩ := ih (fun e he => h e (List.mem_cons_of_mem _ he))
    refine ⟨r ++ sep :: out, ?_⟩
    unfold writeRecords
    rw [if_pos rfl, hr, hout]

theorem c10_write_all_no_panic (st : Registry) (sn : Bool)
    (h : ∀ e ∈ st.registry, 0 ∉ pathBytes e.2) :
    ∃ out, st.write_all sn true = some out := by
  unfold Registry.write_all
  exact writeRecords_some_of_no_nul _ st.registry h

theorem c10_write_all_no_panic_witness :
    ∃ out, Registry.write_all ⟨0, [], [(none, [[39, 32, 97]]), (some 2, [[96, 36]])], []⟩
      false true = some out :=
  c10_write_all_no_panic ⟨0, [], [(none, [[39, 32, 97]]), (some 2, [[96, 36]])], []⟩ false
    (by decide)


theorem not_special_facts {b : Nat} (hb : isSpecialByte b = false) :
    isWs b = false ∧ b ≠ 35 ∧ b ≠ 39 ∧ b ≠ 34 ∧ b ≠ 92 := by
  simp only [isSpecialByte, List.mem_cons, List.not_mem_nil, or_false,
    decide_eq_false_iff_not] at hb
  refine ⟨?_, ?_, ?_, ?_, ?_⟩
  · simp only [isWs, Bool.or_eq_false_iff, decide_eq_false_iff_not]
    omega
  all_goals omega

/-- A word of shell-safe bytes tokenizes as itself. -/
theorem tokWord_plain : ∀ (rest acc : Bytes), (∀ b ∈ rest, isSpecialByte b = false) →
    tokWord acc rest = some [acc ++ rest] := by
  intro rest
  induction rest with
  | nil => intro acc _; simp [tokWord]
  | cons b rest ih =>
    intro acc h
    obtain ⟨hws, h35, h39, h34, h92⟩ := not_special_facts (h b (List.mem_cons_self _ _))
    have step : tokWord acc (b :: rest) = tokWord (acc ++ [b]) rest := by
      simp [tokWord, hws, h39, h34, h92]
    rw [step, ih (acc ++ [b]) (fun x hx => h x (List.mem_cons_of_mem _ hx))]
    simp

/-- Reading the escaped body of a double-quoted token recovers the original
bytes. -/
theorem tokDQ_flatMap : ∀ (p acc rest : Bytes),
    tokDQ acc (p.flatMap escByte ++ rest) = tokDQ (acc ++ p) rest := by
  intro p
  induction p with
  | nil => intro acc rest; simp
  | cons b p ih =>
    intro acc rest
    by_cases hb : b = 36 ∨ b = 96 ∨ b = 34 ∨ b = 92
    · have hshape : (b :: p).flatMap escByte ++ rest =
          92 :: (b :: (p.flatMap escByte ++ rest)) := by
        simp [escByte, hb]
      rw [hshape]
      have step : tokDQ acc (92 :: (b :: (p.flatMap escByte ++ rest))) =
          tokDQ (acc ++ [b]) (p.flatMap escByte ++ rest) := by
        simp [tokDQ, hb]
      rw [step, ih (acc ++ [b]) rest]
      simp
    · have hb34 : b ≠ 34 := fun hx => hb (Or.inr (Or.inr (Or.inl hx)))
      have hb92 : b ≠ 92 := fun hx => hb (Or.inr (Or.inr (Or.inr hx)))
      have hshape : (b :: p).flatMap escByte ++ rest = b :: (p.flatMap escByte ++ rest) := by
        simp [escByte, hb]
      rw [hshape]
      have step : tokDQ acc (b :: (p.flatMap escByte ++ rest)) =
          tokDQ (acc ++ [b]) (p.flatMap escByte ++ rest) := by
        rw [tokDQ.eq_def]
        simp [hb34, hb92]
      rw [step, ih (acc ++ [b]) rest]
      simp

/-- The shell-quoting transform round-trips through the tokenizer on every
NUL-free byte string. -/
theorem tokenize_tryQuote (s : Bytes) (h : 0 ∉ s) :
    ∃ q, tryQuote s = some q ∧ tokenize q = some [s] := by
  unfold tryQuote
  rw [if_neg h]
  by_cases he : s = []
  · rw [if_pos he]
    subst he
    exact ⟨[34, 34], rfl, by simp [tokenize, tokStart, tokDQ, tokWord, isWs]⟩
  · rw [if_neg he]
    by_cases hs : s.any isSpecialByte
    · rw [if_pos hs]
      refine ⟨_, rfl, ?_⟩
      show tokStart (34 :: s.flatMap escByte ++ [34]) = some [s]
      have h1 : tokStart (34 :: s.flatMap escByte ++ [34]) =
          tokDQ [] (s.flatMap escByte ++ [34]) := by
        simp [tokStart, isWs]
      rw [h1, tokDQ_flatMap s [] [34]]
      simp [tokDQ, tokWord]
    · rw [if_neg hs]
      refine ⟨s, rfl, ?_⟩
      obtain ⟨b, rest, rfl⟩ := List.exists_cons_of_ne_nil he
      have hall : ∀ x ∈ b :: rest, isSpecialByte x = false := by
        intro x hx
        by_contra hx2
        exact hs (List.any_eq_true.mpr ⟨x, hx, by
          cases hv : isSpecialByte x
          · exact absurd hv hx2
          · rfl⟩)
      obtain ⟨hws, h35, h39, h34, h92⟩ := not_special_facts (hall b (List.mem_cons_self _ _))
      have step : tokStart (b :: rest) = tokWord [b] rest := by
        simp [tokStart, hws, h35, h39, h34, h92]
      rw [show tokenize (b :: rest) = tokStart (b :: rest) from rfl, step,
        tokWord_plain rest [b] (fun x hx => hall x (List.mem_cons_of_mem _ hx))]
      simp

/-- C8: for every NUL-free path, the quoted record `write_all` emits
tokenizes — under a POSIX-shell-compatible tokenizer — back to exactly the
original path bytes, whatever spaces, quotes or metacharacters they hold. -/
theorem c8_quote_roundtrip (p : FsPath) (h : 0 ∉ pathBytes p) :
    ∃ q, tryQuote (pathBytes p) = some q ∧ tokenize q = some [pathBytes p] :=
  tokenize_tryQuote (pathBytes p) h

theorem c8_quote_roundtrip_witness :
    ∃ q, tryQuote (pathBytes [[119, 101, 105, 114, 100, 32, 110, 97, 109, 101, 46, 112, 110, 103]])
        = some q ∧
      tokenize q =
        some [pathBytes [[119, 101, 105, 114, 100, 32, 110, 97, 109, 101, 46, 112, 110, 103]]] :=
  c8_quote_roundtrip [[119, 101, 105, 114, 100, 32, 110, 97, 109, 101, 46, 112, 110, 103]]
    (by decide)

/-- C7 counterexample: at verbosity `0` (which is `≥ 0`, so the claim
demands a diagnostic) a run whose explicit top-level target file has
unreadable metadata ends with the state unchanged — the target is skipped
silently, with no diagnostic at any verbosity, because `populate` discards
the `fs::metadata` error without printing. -/
theorem c7_silent_target_counterexample :
    (Registry.new 0 [[106, 112, 103]]).populate
        [([[97, 46, 106, 112, 103]], .file false (some 3))] false =
      Registry.new 0 [[106, 112, 103]] ∧
    ((Registry.new 0 [[106, 112, 103]]).populate
        [([[97, 46, 106, 112, 103]], .file false (some 3))] false).diags = [] :=
  ⟨by decide, by decide⟩

/-- C7 (amended): every recoverable error of the descent — an unreadable
directory, an erroneous directory entry, a failed `symlink_metadata`, an
undecodable extension — skips only the offending path, lets the walk
continue, and is emitted as a diagnostic exactly when verbosity is at least
zero (first conjunct: the single gate every diagnostic goes through); but a
metadata-read failure on an explicit top-level target is not reported: such
a target is skipped silently (last conjunct). -/
theorem c7_error_reporting :
    (∀ (st : Registry) (d : Diag),
        (st.emit d).diags = st.diags ++ (if st.verbosity ≥ 0 then [d] else [])) ∧
    (∀ (st : Registry) (path : FsPath) (dh s : Bool)
        (l : List (Option (Bytes × Node))),
        Registry.add_dir st path (.dir s false l) dh = st.emit (.readDirFail path)) ∧
    (∀ (st : Registry) (path : FsPath) (rest : List (Option (Bytes × Node))) (dh : Bool),
        Registry.add_entries st path (none :: rest) dh =
          Registry.add_entries (st.emit (.iterFail path)) path rest dh) ∧
    (∀ (st : Registry) (path : FsPath) (name : Bytes) (child : Node)
        (rest : List (Option (Bytes × Node))) (dh : Bool),
        hiddenSkip dh name = false → lstatOk child = false →
        Registry.add_entries st path (some (name, child) :: rest) dh =
          Registry.add_entries (st.emit (.statFail (path ++ [name]))) path rest dh) ∧
    (∀ (st : Registry) (p : FsPath) (md : Option Int) (x : Bytes),
        pathExtension p = some x → isValidUtf8 x = false →
        st.add_file p md = st.emit (.badExt p x)) ∧
    (∀ (st : Registry) (p : FsPath) (mt : Option Int)
        (rest : List (FsPath × Node)) (dh : Bool),
        st.populate ((p, .file false mt) :: rest) dh = st.populate rest dh) := by
  refine ⟨Registry.emit_diags, fun st path dh s l => rfl, fun st path rest dh => rfl,
    ?_, ?_, fun st p mt rest dh => rfl⟩
  · intro st path name child rest dh h1 h2
    rw [Registry.add_entries_cons_some]
    have hstep : st.stepEntry path name child dh = st.emit (.statFail (path ++ [name])) := by
      unfold Registry.stepEntry
      simp [h1, h2]
    rw [hstep]
  · intro st p md x hx hv
    unfold Registry.add_file
    rw [hx]
    simp [hv]

theorem c7_error_reporting_witness :
    Registry.add_entries (Registry.new 0 []) [] (some ([97], Node.file false none) :: []) false =
      Registry.add_entries ((Registry.new 0 []).emit (.statFail [[97]])) [] [] false ∧
    Registry.add_file (Registry.new 0 []) [[97, 46, 255]] none =
      (Registry.new 0 []).emit (.badExt [[97, 46, 255]] [255]) :=
  ⟨c7_error_reporting.2.2.2.1 (Registry.new 0 []) [] [97] (Node.file false none) [] false
      (by decide) (by decide),
   c7_error_reporting.2.2.2.2.1 (Registry.new 0 []) [[97, 46, 255]] none [255]
      (by decide) (by decide)⟩

/-- C9: the symlink-skip rule does not cover explicit targets — a target
resolving (through any chain of links) to a statable regular file goes
through the extension filter with the metadata of the resolved file, a
target resolving to a statable directory is descended into, and a target that
resolves to neither is skipped with the state, diagnostics included,
untouched. -/
theorem c9_target_resolution :
    (∀ (st : Registry) (p : FsPath) (n : Node) (mt : Option Int)
        (rest : List (FsPath × Node)) (dh : Bool),
        resolve n = some (.file true mt) →
        st.populate ((p, n) :: rest) dh = Registry.populate (st.add_file p mt) rest dh) ∧
    (∀ (st : Registry) (p : FsPath) (n : Node) (rOk : Bool)
        (l : List (Option (Bytes × Node))) (rest : List (FsPath × Node)) (dh : Bool),
        resolve n = some (.dir true rOk l) →
        st.populate ((p, n) :: rest) dh =
          Registry.populate (st.add_dir p (.dir true rOk l) dh) rest dh) ∧
    (∀ (st : Registry) (p : FsPath) (n : Node) (rest : List (FsPath × Node)) (dh : Bool),
        (∀ mt, resolve n ≠ some (.file true mt)) →
        (∀ rOk l, resolve n ≠ some (.dir true rOk l)) →
        st.populate ((p, n) :: rest) dh = st.populate rest dh) := by
  refine ⟨?_, ?_, ?_⟩
  · intro st p n mt rest dh hres
    rw [Registry.populate_cons]
    have hst : st.stepTarget p n dh = st.add_file p mt := by
      unfold Registry.stepTarget
      rw [hres]
    rw [hst]
  · intro st p n rOk l rest dh hres
    rw [Registry.populate_cons]
    have hst : st.stepTarget p n dh = st.add_dir p (.dir true rOk l) dh := by
      unfold Registry.stepTarget
      rw [hres]
    rw [hst]
  · intro st p n rest dh h1 h2
    rw [Registry.populate_cons]
    have hst : st.stepTarget p n dh = st := by
      unfold Registry.stepTarget
      cases hr : resolve n with
      | none => rfl
      | some m =>
        cases m with
        | file so mt =>
          cases so with
          | true => exact absurd hr (h1 mt)
          | false => rfl
        | dir so ro l =>
          cases so with
          | true => exact absurd hr (h2 ro l)
          | false => rfl
        | symlink so tgt => rfl
        | other so => rfl
    rw [hst]

theorem c9_target_resolution_witness :
    Registry.populate (Registry.new 0 [[106, 112, 103]])
        [([[108]], Node.symlink true (some (.file true (some 4))))] false =
      Registry.populate
        (Registry.add_file (Registry.new 0 [[106, 112, 103]]) [[108]] (some 4)) [] false ∧
    Registry.populate (Registry.new 0 [])
        [([[109]], Node.symlink false (some (.dir true true [])))] true =
      Registry.populate
        (Registry.add_dir (Registry.new 0 []) [[109]] (.dir true true []) true) [] true ∧
    Registry.populate (Registry.new 0 []) [([[110]], Node.symlink true none)] false =
      Registry.populate (Registry.new 0 []) [] false :=
  ⟨c9_target_resolution.1 (Registry.new 0 [[106, 112, 103]]) [[108]]
      (Node.symlink true (some (.file true (some 4)))) (some 4) [] false rfl,
   c9_target_resolution.2.1 (Registry.new 0 []) [[109]]
      (Node.symlink false (some (.dir true true []))) true [] [] true rfl,
   c9_target_resolution.2.2 (Registry.new 0 []) [[110]] (Node.symlink true none) [] false
      (by intro mt h; simp [resolve] at h) (by intro rOk l h; simp [resolve] at h)⟩


theorem NodeWF_resolve : ∀ n : Node, ∀ m : Node,
    resolve n = some m → NodeWF n = true → NodeWF m = true := by
  intro n
  induction n using resolve.induct with
  | case1 s =>
    intro m h
    simp [resolve] at h
  | case2 s t ih =>
    intro m h hwf
    rw [show resolve (Node.symlink s (some t)) = resolve t from rfl] at h
    exact ih m h (by rwa [show NodeWF (Node.symlink s (some t)) = NodeWF t from rfl] at hwf)
  | case3 s mt => intro m h hwf; rw [show resolve (Node.file s mt) = some (Node.file s mt) from rfl] at h; cases h; exact hwf
  | case4 s r l => intro m h hwf; rw [show resolve (Node.dir s r l) = some (Node.dir s r l) from rfl] at h; cases h; exact hwf
  | case5 s => intro m h hwf; rw [show resolve (Node.other s) = some (Node.other s) from rfl] at h; cases h; exact hwf

theorem mem_entryNames {a : Bytes} {c : Node} {es : List (Option (Bytes × Node))}
    (h : some (a, c) ∈ es) : a ∈ entryNames es :=
  List.mem_filterMap.mpr ⟨some (a, c), h, rfl⟩

theorem singleton_prefix_eq {a b : Bytes} (h : List.IsPrefix [a] [b]) : a = b := by
  obtain ⟨t, ht⟩ := h
  injection ht

theorem Registry.add_file_registry_cases (st : Registry) (p : FsPath) (md : Option Int) :
    (st.add_file p md).registry = st.registry ∨
    (st.add_file p md).registry = st.registry ++ [(md, p)] := by
  unfold Registry.add_file
  cases hx : pathExtension p with
  | none => exact Or.inl rfl
  | some ext =>
    by_cases hv : isValidUtf8 ext
    · by_cases hm : ext ∈ st.valid_extensions
      · right; simp [hv, hm]
      · left; simp [hv, hm]
    · left; simp [hv]

/-- With distinct names inside every directory, the rows one directory walk
adds are pairwise distinct paths, each strictly below the directory through
one of its listed names. -/
theorem Registry.add_entries_nodup (path : FsPath) (es : List (Option (Bytes × Node)))
    (dh : Bool) :
    ∀ st : Registry,
      (st.registry.map Prod.snd).Nodup →
      (∀ q ∈ st.registry.map Prod.snd, ∀ name child, some (name, child) ∈ es →
          ¬ List.IsPrefix (path ++ [name]) q) →
      EntriesWF es = true →
      (entryNames es).Nodup →
      ((Registry.add_entries st path es dh).registry.map Prod.snd).Nodup ∧
      (∀ q ∈ (Registry.add_entries st path es dh).registry.map Prod.snd,
          q ∈ st.registry.map Prod.snd ∨
          ∃ name child, some (name, child) ∈ es ∧ List.IsPrefix (path ++ [name]) q) := by
  refine Registry.add_entries.induct
    (fun _ path n dh => ∀ st : Registry,
      (st.registry.map Prod.snd).Nodup →
      (∀ q ∈ st.registry.map Prod.snd, ¬ List.IsPrefix path q) →
      NodeWF n = true →
      ((Registry.add_dir st path n dh).registry.map Prod.snd).Nodup ∧
      (∀ q ∈ (Registry.add_dir st path n dh).registry.map Prod.snd,
          q ∈ st.registry.map Prod.snd ∨ List.IsPrefix path q))
    (fun _ path es dh => ∀ st : Registry,
      (st.registry.map Prod.snd).Nodup →
      (∀ q ∈ st.registry.map Prod.snd, ∀ name child, some (name, child) ∈ es →
          ¬ List.IsPrefix (path ++ [name]) q) →
      EntriesWF es = true →
      (entryNames es).Nodup →
      ((Registry.add_entries st path es dh).registry.map Prod.snd).Nodup ∧
      (∀ q ∈ (Registry.add_entries st path es dh).registry.map Prod.snd,
          q ∈ st.registry.map Prod.snd ∨
          ∃ name child, some (name, child) ∈ es ∧ List.IsPrefix (path ++ [name]) q))
    ?_ ?_ ?_ ?_ ?_ ⟨0, [], [], []⟩ path es dh
  · -- a readable directory: defer to its listing
    intro st path dh so listing ih s hnd hpre hwf
    simp only [Registry.add_dir]
    have hwf2 : (entryNames listing).Nodup ∧ EntriesWF listing = true := by
      have := hwf
      simp only [NodeWF, Bool.and_eq_true, decide_eq_true_eq] at this
      exact this
    have h := ih s hnd
      (fun q hq name child _ hpref =>
        hpre q hq ((List.prefix_append path [name]).trans hpref))
      hwf2.2 hwf2.1
    refine ⟨h.1, fun q hq => (h.2 q hq).imp id ?_⟩
    rintro ⟨name, child, _, hpref⟩
    exact (List.prefix_append path [name]).trans hpref
  · -- an unreadable or non-directory node: only a diagnostic
    intro t st path dh ht s hnd hpre hwf
    cases t with
    | dir so ro l =>
      cases ro with
      | true => exact (ht so l rfl).elim
      | false =>
        simp only [Registry.add_dir, Registry.emit_registry]
        exact ⟨hnd, fun q hq => Or.inl hq⟩
    | file so mt =>
      simp only [Registry.add_dir, Registry.emit_registry]
      exact ⟨hnd, fun q hq => Or.inl hq⟩
    | symlink so tgt =>
      simp only [Registry.add_dir, Registry.emit_registry]
      exact ⟨hnd, fun q hq => Or.inl hq⟩
    | other so =>
      simp only [Registry.add_dir, Registry.emit_registry]
      exact ⟨hnd, fun q hq => Or.inl hq⟩
  · -- an exhausted listing
    intro st path dh s hnd hpre hwf hnames
    rw [Registry.add_entries_nil]
    exact ⟨hnd, fun q hq => Or.inl hq⟩
  · -- an erroneous entry: only a diagnostic, then the rest
    intro st path dh rest ih s hnd hpre hwf hnames
    rw [Registry.add_entries_cons_none]
    have h := ih (s.emit (Diag.iterFail path))
      (by rwa [Registry.emit_registry])
      (by rw [Registry.emit_registry]
          exact fun q hq name child hmem => hpre q hq name child (List.mem_cons_of_mem _ hmem))
      hwf hnames
    rw [Registry.emit_registry] at h
    refine ⟨h.1, fun q hq => (h.2 q hq).imp id ?_⟩
    rintro ⟨name, child, hmem, hpref⟩
    exact ⟨name, child, List.mem_cons_of_mem _ hmem, hpref⟩
  · -- a successfully listed entry, then the rest
    intro st path dh name child rest st2 ihdir ihrest s hnd hpre hwf hnames
    rw [Registry.add_entries_cons_some]
    have hwfc : NodeWF child = true ∧ EntriesWF rest = true := by
      simpa [EntriesWF, Bool.and_eq_true] using hwf
    have hnames2 : name ∉ entryNames rest ∧ (entryNames rest).Nodup := by
      have : entryNames (some (name, child) :: rest) = name :: entryNames rest := rfl
      rw [this] at hnames
      exact ⟨(List.nodup_cons.mp hnames).1, (List.nodup_cons.mp hnames).2⟩
    -- what processing this one entry does to the registry
    have hstep : ((s.stepEntry path name child dh).registry.map Prod.snd).Nodup ∧
        (∀ q ∈ (s.stepEntry path name child dh).registry.map Prod.snd,
          q ∈ s.registry.map Prod.snd ∨ List.IsPrefix (path ++ [name]) q) := by
      unfold Registry.stepEntry
      split
      · exact ⟨hnd, fun q hq => Or.inl hq⟩
      · split
        · rw [Registry.emit_registry]
          exact ⟨hnd, fun q hq => Or.inl hq⟩
        · split
          · exact ⟨hnd, fun q hq => Or.inl hq⟩
          · split
            · -- a regular file through add_file
              rcases Registry.add_file_registry_cases s (path ++ [name]) (fileMtime child)
                with hc | hc
              · rw [hc]
                exact ⟨hnd, fun q hq => Or.inl hq⟩
              · rw [hc]
                have hnotin : (path ++ [name]) ∉ s.registry.map Prod.snd := fun hin =>
                  hpre (path ++ [name]) hin name child (List.mem_cons_self _ _)
                    (List.prefix_refl _)
                constructor
                · rw [List.map_append]
                  rw [List.nodup_append]
                  refine ⟨hnd, by simp, ?_⟩
                  intro a ha hb
                  simp only [List.map_cons, List.map_nil, List.mem_singleton] at hb
                  exact hnotin (hb ▸ ha)
                · intro q hq
                  rw [List.map_append] at hq
                  rcases List.mem_append.mp hq with hq | hq
                  · exact Or.inl hq
                  · simp only [List.map_cons, List.map_nil, List.mem_singleton] at hq
                    exact Or.inr (hq ▸ List.prefix_refl _)
            · split
              · -- a directory: recurse
                exact ihdir s hnd
                  (fun q hq => hpre q hq name child (List.mem_cons_self _ _)) hwfc.1
              · exact ⟨hnd, fun q hq => Or.inl hq⟩
    -- then the rest of the listing from the stepped state
    have h := ihrest (s.stepEntry path name child dh) hstep.1
      (by
        intro q hq name2 child2 hmem2 hpref2
        rcases hstep.2 q hq with hq2 | hq2
        · exact hpre q hq2 name2 child2 (List.mem_cons_of_mem _ hmem2) hpref2
        · rcases List.prefix_or_prefix_of_prefix hq2 hpref2 with hc | hc
          · have : name = name2 :=
              singleton_prefix_eq ((List.prefix_append_right_inj path).mp hc)
            exact hnames2.1 (this ▸ mem_entryNames hmem2)
          · have : name2 = name :=
              singleton_prefix_eq ((List.prefix_append_right_inj path).mp hc)
            exact hnames2.1 (this ▸ mem_entryNames hmem2))
      hwfc.2 hnames2.2
    refine ⟨h.1, fun q hq => ?_⟩
    rcases h.2 q hq with hq2 | ⟨name2, child2, hmem2, hpref2⟩
    · rcases hstep.2 q hq2 with hq3 | hq3
      · exact Or.inl hq3
      · exact Or.inr ⟨name, child, List.mem_cons_self _ _, hq3⟩
    · exact Or.inr ⟨name2, child2, List.mem_cons_of_mem _ hmem2, hpref2⟩

theorem Registry.add_dir_nodup (path : FsPath) (n : Node) (dh : Bool) (st : Registry)
    (hnd : (st.registry.map Prod.snd).Nodup)
    (hpre : ∀ q ∈ st.registry.map Prod.snd, ¬ List.IsPrefix path q)
    (hwf : NodeWF n = true) :
    ((Registry.add_dir st path n dh).registry.map Prod.snd).Nodup ∧
    (∀ q ∈ (Registry.add_dir st path n dh).registry.map Prod.snd,
        q ∈ st.registry.map Prod.snd ∨ List.IsPrefix path q) := by
  cases n with
  | dir so ro l =>
    cases ro with
    | true =>
      simp only [Registry.add_dir]
      have hwf2 : (entryNames l).Nodup ∧ EntriesWF l = true := by
        simpa [NodeWF, Bool.and_eq_true, decide_eq_true_eq] using hwf
      have h := Registry.add_entries_nodup path l dh st hnd
        (fun q hq name child _ hpref =>
          hpre q hq ((List.prefix_append path [name]).trans hpref))
        hwf2.2 hwf2.1
      refine ⟨h.1, fun q hq => (h.2 q hq).imp id ?_⟩
      rintro ⟨name, child, _, hpref⟩
      exact (List.prefix_append path [name]).trans hpref
    | false =>
      simp only [Registry.add_dir, Registry.emit_registry]
      exact ⟨hnd, fun q hq => Or.inl hq⟩
  | file so mt =>
    simp only [Registry.add_dir, Registry.emit_registry]
    exact ⟨hnd, fun q hq => Or.inl hq⟩
  | symlink so tgt =>
    simp only [Registry.add_dir, Registry.emit_registry]
    exact ⟨hnd, fun q hq => Or.inl hq⟩
  | other so =>
    simp only [Registry.add_dir, Registry.emit_registry]
    exact ⟨hnd, fun q hq => Or.inl hq⟩

/-- With prefix-free pairwise-distinct targets over a well-formed
filesystem, every row `populate` adds lies at or below exactly one target
and no path is added twice. -/
theorem Registry.populate_nodup (targets : List (FsPath × Node)) (dh : Bool) :
    ∀ st : Registry,
      (st.registry.map Prod.snd).Nodup →
      (∀ q ∈ st.registry.map Prod.snd, ∀ t ∈ targets, ¬ List.IsPrefix t.1 q) →
      (∀ t ∈ targets, NodeWF t.2 = true) →
      targets.Pairwise (fun a b => ¬ List.IsPrefix a.1 b.1 ∧ ¬ List.IsPrefix b.1 a.1) →
      ((st.populate targets dh).registry.map Prod.snd).Nodup ∧
      (∀ q ∈ (st.populate targets dh).registry.map Prod.snd,
          q ∈ st.registry.map Prod.snd ∨ ∃ t ∈ targets, List.IsPrefix t.1 q) := by
  induction targets with
  | nil =>
    intro st hnd _ _ _
    rw [Registry.populate_nil]
    exact ⟨hnd, fun q hq => Or.inl hq⟩
  | cons t rest ih =>
    obtain ⟨p, n⟩ := t
    intro st hnd hpre hwf hpair
    rw [Registry.populate_cons]
    have hpair2 := List.pairwise_cons.mp hpair
    -- what processing this one target does to the registry
    have hstep : ((st.stepTarget p n dh).registry.map Prod.snd).Nodup ∧
        (∀ q ∈ (st.stepTarget p n dh).registry.map Prod.snd,
          q ∈ st.registry.map Prod.snd ∨ List.IsPrefix p q) := by
      unfold Registry.stepTarget
      split
      next mt hres =>
        rcases Registry.add_file_registry_cases st p mt with hc | hc
        · rw [hc]
          exact ⟨hnd, fun q hq => Or.inl hq⟩
        · rw [hc]
          have hnotin : p ∉ st.registry.map Prod.snd := fun hin =>
            hpre p hin (p, n) (List.mem_cons_self _ _) (List.prefix_refl _)
          constructor
          · rw [List.map_append, List.nodup_append]
            refine ⟨hnd, by simp, ?_⟩
            intro a ha hb
            simp only [List.map_cons, List.map_nil, List.mem_singleton] at hb
            exact hnotin (hb ▸ ha)
          · intro q hq
            rw [List.map_append] at hq
            rcases List.mem_append.mp hq with hq | hq
            · exact Or.inl hq
            · simp only [List.map_cons, List.map_nil, List.mem_singleton] at hq
              exact Or.inr (hq ▸ List.prefix_refl _)
      next rOk l hres =>
        have hwfd : NodeWF (Node.dir true rOk l) = true :=
          NodeWF_resolve n _ hres (hwf (p, n) (List.mem_cons_self _ _))
        exact Registry.add_dir_nodup p (Node.dir true rOk l) dh st hnd
          (fun q hq => hpre q hq (p, n) (List.mem_cons_self _ _)) hwfd
      next =>
        exact ⟨hnd, fun q hq => Or.inl hq⟩
    -- then the remaining targets from the stepped state
    have h := ih (st.stepTarget p n dh) hstep.1
      (by
        intro q hq t2 hmem2 hpref2
        rcases hstep.2 q hq with hq2 | hq2
        · exact hpre q hq2 t2 (List.mem_cons_of_mem _ hmem2) hpref2
        · rcases List.prefix_or_prefix_of_prefix hq2 hpref2 with hc | hc
          · exact (hpair2.1 t2 hmem2).1 hc
          · exact (hpair2.1 t2 hmem2).2 hc)
      (fun t2 hmem2 => hwf t2 (List.mem_cons_of_mem _ hmem2)) hpair2.2
    refine ⟨h.1, fun q hq => ?_⟩
    rcases h.2 q hq with hq2 | ⟨t2, hmem2, hpref2⟩
    · rcases hstep.2 q hq2 with hq3 | hq3
      · exact Or.inl hq3
      · exact Or.inr ⟨(p, n), List.mem_cons_self _ _, hq3⟩
    · exact Or.inr ⟨t2, List.mem_cons_of_mem _ hmem2, hpref2⟩

/-- C5 counterexample: the same file given twice as an explicit target is
registered twice — targets are not deduplicated, so over this sequence of
targets a path occurs twice in the registry. -/
theorem c5_duplicate_counterexample :
    ¬ ((((Registry.new 0 [[106, 112, 103]]).populate
        [([[97, 46, 106, 112, 103]], Node.file true (some 1)),
         ([[97, 46, 106, 112, 103]], Node.file true (some 1))] false).registry.map
          Prod.snd).Nodup) := by decide

/-- C5 (amended): when no target path duplicates or path-prefixes another
and every directory listing holds pairwise-distinct entry names (as on a
real filesystem), no path occurs twice in the resulting registry. -/
theorem c5_no_duplicates (v : Int) (E : List Bytes) (targets : List (FsPath × Node))
    (dh : Bool)
    (hwf : ∀ t ∈ targets, NodeWF t.2 = true)
    (hpair : targets.Pairwise (fun a b => ¬ List.IsPrefix a.1 b.1 ∧ ¬ List.IsPrefix b.1 a.1)) :
    (((Registry.new v E).populate targets dh).registry.map Prod.snd).Nodup :=
  (Registry.populate_nodup targets dh (Registry.new v E) (by simp [Registry.new])
    (fun q hq => by simp [Registry.new] at hq) hwf hpair).1

theorem c5_no_duplicates_witness :
    ((((Registry.new 0 [[106, 112, 103]]).populate
        [([[97, 46, 106, 112, 103]], Node.file true (some 1)),
         ([[100]], Node.dir true true
            [some ([97, 46, 106, 112, 103], Node.file true (some 3)),
             some ([98, 46, 106, 112, 103], Node.file true (some 2))])] false).registry.map
          Prod.snd).Nodup) :=
  c5_no_duplicates 0 [[106, 112, 103]]
    [([[97, 46, 106, 112, 103]], Node.file true (some 1)),
     ([[100]], Node.dir true true
        [some ([97, 46, 106, 112, 103], Node.file true (some 3)),
         some ([98, 46, 106, 112, 103], Node.file true (some 2))])] false
    (by intro t ht
        rcases List.mem_cons.mp ht with h | h
        · rw [h]; rfl
        · rw [List.mem_singleton.mp h]; rfl)
    (by
      refine List.pairwise_cons.mpr ⟨?_, List.pairwise_cons.mpr ⟨by simp, List.Pairwise.nil⟩⟩
      intro b hb
      rw [List.mem_singleton.mp hb]
      exact ⟨by decide, by decide⟩)
